import Mathlib

/-!
Verification of `src/matrix/rotate_matrix.py`.

The Python module provides pure functions on grids (`list[list[int]]`):
`make_matrix`, `transpose`, `reverse_row`, `reverse_column`, and the three
rotations `rotate_90`, `rotate_180`, `rotate_270` built from them.  We embed
each function as a Lean definition on `List (List Int)` and prove the
specification's properties about them.
-/

namespace RotateMatrix

/-- A grid is a list of rows of integers, mirroring Python `list[list[int]]`. -/
abbrev Grid := List (List Int)

/-- Embedding of `make_matrix(row_size)`:
`row_size = abs(row_size) or 4` (Python `or`: `0` is falsy, so `0` becomes `4`),
then `[[1 + x + y * row_size for x in range(row_size)] for y in range(row_size)]`. -/
def make_matrix (row_size : Int) : Grid :=
  let n : Nat := if row_size.natAbs = 0 then 4 else row_size.natAbs
  (List.range n).map fun y : Nat =>
    (List.range n).map fun x : Nat => 1 + (x : Int) + (y : Int) * (n : Int)

/-- Embedding of `transpose(matrix) = [list(x) for x in zip(*matrix)]`.
Python `zip` truncates to the shortest argument: `zip()` (no rows) yields
nothing; `zip(r)` yields one 1-tuple per element of `r`; `zip(r, *rs)` pairs
each element of `r` with the corresponding tuple of `zip(*rs)`, stopping at
the shorter of the two — exactly `List.zipWith` cons. -/
def transpose : Grid → Grid
  | [] => []
  | [r] => r.map fun a => [a]
  | r :: rs => List.zipWith (fun a col => a :: col) r (transpose rs)

/-- Embedding of `reverse_row(matrix) = matrix[::-1]`. -/
def reverse_row (matrix : Grid) : Grid := matrix.reverse

/-- Embedding of `reverse_column(matrix) = [x[::-1] for x in matrix]`. -/
def reverse_column (matrix : Grid) : Grid := matrix.map List.reverse

/-- Embedding of `rotate_90(matrix) = reverse_row(transpose(matrix))`. -/
def rotate_90 (matrix : Grid) : Grid := reverse_row (transpose matrix)

/-- Embedding of `rotate_180(matrix) = reverse_row(reverse_column(matrix))`. -/
def rotate_180 (matrix : Grid) : Grid := reverse_row (reverse_column matrix)

/-- Embedding of `rotate_270(matrix) = reverse_column(transpose(matrix))`. -/
def rotate_270 (matrix : Grid) : Grid := reverse_column (transpose matrix)

/-- Rectangularity: `m` has exactly `R` rows, each of length `C`.  The spec's
Grid entity additionally requires `R, C ≥ 1` for valid inputs; that is stated
as separate hypotheses where needed. -/
def Rect (R C : Nat) (m : Grid) : Prop := m.length = R ∧ ∀ r ∈ m, r.length = C

instance (R C : Nat) (m : Grid) : Decidable (Rect R C m) := by
  unfold Rect; infer_instance

/-- Total cell access: row `i`, column `j`, with defaults out of range. -/
def entryD (m : Grid) (i j : Nat) : Int := (m.getD i []).getD j 0

/-- The canonical `R × C` grid whose cell at row `i`, column `j` is `f i j`. -/
def mkGrid (R C : Nat) (f : Nat → Nat → Int) : Grid :=
  (List.range R).map fun i => (List.range C).map fun j => f i j

/-- Minimum row length of a grid (`0` for the empty grid); this is the number
of tuples Python `zip(*matrix)` produces. -/
def minRowLen : Grid → Nat
  | [] => 0
  | [r] => r.length
  | r :: rs => min r.length (minRowLen rs)

theorem length_mkGrid (R C : Nat) (f : Nat → Nat → Int) : (mkGrid R C f).length = R := by
  simp [mkGrid]

theorem getElem?_mkGrid (R C : Nat) (f : Nat → Nat → Int) (i : Nat) (hi : i < R) :
    (mkGrid R C f)[i]? = some ((List.range C).map fun j => f i j) := by
  simp [mkGrid, List.getElem?_range hi]

theorem entryD_mkGrid (R C : Nat) (f : Nat → Nat → Int) (i j : Nat)
    (hi : i < R) (hj : j < C) : entryD (mkGrid R C f) i j = f i j := by
  simp [entryD, getElem?_mkGrid R C f i hi, List.getElem?_range hj]

theorem mkGrid_congr {R C : Nat} {f g : Nat → Nat → Int}
    (h : ∀ i < R, ∀ j < C, f i j = g i j) : mkGrid R C f = mkGrid R C g := by
  unfold mkGrid
  refine List.map_congr_left fun i hi => ?_
  refine List.map_congr_left fun j hj => ?_
  exact h i (List.mem_range.mp hi) j (List.mem_range.mp hj)

/-- Every rectangular grid is the canonical grid of its own entries. -/
theorem Rect.eq_mkGrid {R C : Nat} {m : Grid} (h : Rect R C m) :
    m = mkGrid R C (entryD m) := by
  obtain ⟨hlen, hrow⟩ := h
  refine List.ext_getElem? fun i => ?_
  rcases Nat.lt_or_ge i R with hi | hi
  · rw [getElem?_mkGrid R C _ i hi]
    have him : i < m.length := hlen ▸ hi
    rw [List.getElem?_eq_getElem him]
    refine congrArg some ?_
    refine List.ext_getElem? fun j => ?_
    have hlr : (m[i]).length = C := hrow _ (List.getElem_mem him)
    rcases Nat.lt_or_ge j C with hj | hj
    · have hjm : j < (m[i]).length := hlr ▸ hj
      rw [List.getElem?_eq_getElem hjm]
      simp [entryD, List.getElem?_eq_getElem him, List.getElem?_eq_getElem hjm,
        List.getElem?_range hj]
    · rw [List.getElem?_eq_none (by omega), List.getElem?_eq_none (by simp; omega)]
  · rw [List.getElem?_eq_none (by omega), List.getElem?_eq_none (by simp [mkGrid]; omega)]

/-- Reversing a list built by mapping over `range n` reindexes by `n - 1 - i`. -/
theorem reverse_range_map {α : Type} (n : Nat) (g : Nat → α) :
    ((List.range n).map g).reverse = (List.range n).map fun i => g (n - 1 - i) := by
  refine List.ext_getElem (by simp) fun i hi hic => ?_
  have hn : i < n := by simpa using hic
  rw [List.getElem_reverse]
  simp only [List.getElem_map, List.getElem_range, List.length_map, List.length_range]

/-- `reverse_row` on a canonical grid reverses the row index. -/
theorem reverse_row_mkGrid (R C : Nat) (f : Nat → Nat → Int) :
    reverse_row (mkGrid R C f) = mkGrid R C fun i j => f (R - 1 - i) j := by
  unfold reverse_row mkGrid
  exact reverse_range_map R _

/-- `reverse_column` on a canonical grid reverses the column index. -/
theorem reverse_column_mkGrid (R C : Nat) (f : Nat → Nat → Int) :
    reverse_column (mkGrid R C f) = mkGrid R C fun i j => f i (C - 1 - j) := by
  unfold reverse_column mkGrid
  rw [List.map_map]
  refine List.map_congr_left fun i _ => ?_
  exact reverse_range_map C (f i)

theorem transpose_cons_of_ne_nil (r : List Int) {rs : Grid} (h : rs ≠ []) :
    transpose (r :: rs) = List.zipWith (fun a col => a :: col) r (transpose rs) := by
  cases rs with
  | nil => exact absurd rfl h
  | cons s t => rfl

/-- `transpose` on a canonical grid with at least one row swaps the indices. -/
theorem transpose_mkGrid (C : Nat) :
    ∀ (R : Nat) (f : Nat → Nat → Int), 0 < R →
      transpose (mkGrid R C f) = mkGrid C R fun i j => f j i := by
  intro R
  induction R with
  | zero => intro f h; omega
  | succ R ih =>
    intro f _
    rcases Nat.eq_zero_or_pos R with hR | hR
    · subst hR
      unfold mkGrid
      have h1 : List.range 1 = [0] := by decide
      simp only [h1, List.map_cons, List.map_nil, transpose, List.map_map]
      refine List.map_congr_left fun i _ => ?_
      rfl
    · have hsplit : mkGrid (R + 1) C f
          = ((List.range C).map (f 0)) :: mkGrid R C fun i j => f (i + 1) j := by
        unfold mkGrid
        rw [List.range_succ_eq_map, List.map_cons, List.map_map]
        rfl
      have hne : mkGrid R C (fun i j => f (i + 1) j) ≠ [] := by
        intro hnil
        have := congrArg List.length hnil
        rw [length_mkGrid] at this
        simp at this
        omega
      rw [hsplit, transpose_cons_of_ne_nil _ hne, ih _ hR]
      unfold mkGrid
      rw [List.zipWith_map, List.zipWith_same]
      refine List.map_congr_left fun i _ => ?_
      rw [List.range_succ_eq_map, List.map_cons, List.map_map]
      rfl

/-- The number of rows of `transpose m` is the minimum row length of `m`,
exactly the number of tuples Python `zip(*m)` yields. -/
theorem transpose_length : ∀ m : Grid, (transpose m).length = minRowLen m
  | [] => rfl
  | [r] => by simp [transpose, minRowLen]
  | r :: s :: t => by
    have ih := transpose_length (s :: t)
    simp only [transpose, minRowLen, List.length_zipWith, ih]

/-- Every row of `transpose m` has length `m.length`: each `zip(*m)` tuple has
one component per row of `m`. -/
theorem length_of_mem_transpose : ∀ m : Grid, ∀ row ∈ transpose m, row.length = m.length
  | [] => by simp [transpose]
  | [r] => by
    intro row hrow
    simp only [transpose, List.mem_map] at hrow
    obtain ⟨a, _, rfl⟩ := hrow
    rfl
  | r :: s :: t => by
    intro row hrow
    rw [show transpose (r :: s :: t)
          = List.zipWith (fun a col => a :: col) r (transpose (s :: t)) from rfl,
        List.mem_iff_getElem?] at hrow
    obtain ⟨i, hi⟩ := hrow
    rw [List.getElem?_zipWith] at hi
    cases hr : r[i]? with
    | none => rw [hr] at hi; simp at hi
    | some a =>
      cases ht : (transpose (s :: t))[i]? with
      | none => rw [hr, ht] at hi; simp at hi
      | some col =>
        rw [hr, ht] at hi
        simp only [Option.some.injEq] at hi
        have hcol : col ∈ transpose (s :: t) := List.getElem?_mem ht
        have hlen := length_of_mem_transpose (s :: t) col hcol
        rw [← hi]
        simp [hlen]

/-- The minimum row length is a lower bound on every row length. -/
theorem minRowLen_le : ∀ m : Grid, ∀ r ∈ m, minRowLen m ≤ r.length
  | [] => by simp
  | [r] => by
    intro q hq
    simp only [List.mem_singleton] at hq
    subst hq
    simp [minRowLen]
  | r :: s :: t => by
    intro q hq
    have ih := minRowLen_le (s :: t)
    rcases List.mem_cons.mp hq with h | h
    · subst h
      simp [minRowLen]
    · calc minRowLen (r :: s :: t) ≤ minRowLen (s :: t) := by simp [minRowLen]
        _ ≤ q.length := ih q h

/-- The minimum row length is attained by some row of a nonempty grid. -/
theorem minRowLen_mem : ∀ m : Grid, m ≠ [] → ∃ r ∈ m, r.length = minRowLen m
  | [] => fun h => absurd rfl h
  | [r] => fun _ => ⟨r, by simp, by simp [minRowLen]⟩
  | r :: s :: t => fun _ => by
    obtain ⟨q, hq, hql⟩ := minRowLen_mem (s :: t) (by simp)
    rcases Nat.le_total r.length (minRowLen (s :: t)) with h | h
    · refine ⟨r, by simp, ?_⟩
      simp only [minRowLen]
      omega
    · refine ⟨q, List.mem_cons.mpr (Or.inr hq), ?_⟩
      simp only [minRowLen]
      omega

/-- Jaggedness: two rows of `m` have different lengths. -/
def Jagged (m : Grid) : Prop := ∃ r₁ ∈ m, ∃ r₂ ∈ m, r₁.length ≠ r₂.length

instance (m : Grid) : Decidable (Jagged m) := by
  unfold Jagged; infer_instance

/-- C1: for every rectangular grid `m` (the spec's Grid has both dimensions
at least 1), applying `rotate_90` twice yields the same grid as applying
`rotate_180` once. -/
theorem rotate_90_rotate_90_eq_rotate_180 (R C : Nat) (m : Grid)
    (hR : 0 < R) (hC : 0 < C) (h : Rect R C m) :
    rotate_90 (rotate_90 m) = rotate_180 m := by
  rw [h.eq_mkGrid]
  unfold rotate_90 rotate_180
  rw [transpose_mkGrid C R _ hR, reverse_row_mkGrid,
      transpose_mkGrid R C _ hC, reverse_row_mkGrid,
      reverse_column_mkGrid, reverse_row_mkGrid]

/-- Witness for C1 at the non-square grid `[[1,2,3],[4,5,6]]`. -/
theorem rotate_90_rotate_90_eq_rotate_180_witness :
    (0 < 2 ∧ 0 < 3 ∧ Rect 2 3 [[1, 2, 3], [4, 5, 6]]) ∧
      rotate_90 (rotate_90 [[1, 2, 3], [4, 5, 6]]) = rotate_180 [[1, 2, 3], [4, 5, 6]] :=
  ⟨⟨by decide, by decide, by decide⟩,
    rotate_90_rotate_90_eq_rotate_180 2 3 _ (by decide) (by decide) (by decide)⟩

/-- C2: for every rectangular grid `m`, square or not, four applications of
`rotate_90` return the original grid in shape and values. -/
theorem rotate_90_four_times_eq_self (R C : Nat) (m : Grid)
    (hR : 0 < R) (hC : 0 < C) (h : Rect R C m) :
    rotate_90 (rotate_90 (rotate_90 (rotate_90 m))) = m := by
  conv_lhs => rw [h.eq_mkGrid]
  unfold rotate_90
  rw [transpose_mkGrid C R _ hR, reverse_row_mkGrid,
      transpose_mkGrid R C _ hC, reverse_row_mkGrid,
      transpose_mkGrid C R _ hR, reverse_row_mkGrid,
      transpose_mkGrid R C _ hC, reverse_row_mkGrid]
  conv_rhs => rw [h.eq_mkGrid]
  refine mkGrid_congr fun i hi j hj => ?_
  show entryD m (R - 1 - (R - 1 - i)) (C - 1 - (C - 1 - j)) = entryD m i j
  rw [show R - 1 - (R - 1 - i) = i from by omega,
      show C - 1 - (C - 1 - j) = j from by omega]

/-- Witness for C2 at the non-square grid `[[1,2,3],[4,5,6]]`. -/
theorem rotate_90_four_times_eq_self_witness :
    (0 < 2 ∧ 0 < 3 ∧ Rect 2 3 [[1, 2, 3], [4, 5, 6]]) ∧
      rotate_90 (rotate_90 (rotate_90 (rotate_90 [[1, 2, 3], [4, 5, 6]])))
        = [[1, 2, 3], [4, 5, 6]] :=
  ⟨⟨by decide, by decide, by decide⟩,
    rotate_90_four_times_eq_self 2 3 _ (by decide) (by decide) (by decide)⟩

/-- C3: `transpose` maps an `R × C` rectangular grid (both dimensions at
least 1) to a `C × R` grid with `output[i][j] = input[j][i]`, and in
particular `transpose [[1,2,3],[4,5,6]] = [[1,4],[2,5],[3,6]]`. -/
theorem transpose_contract (R C : Nat) (m : Grid)
    (hR : 0 < R) ( _hC : 0 < C) (h : Rect R C m) :
    Rect C R (transpose m) ∧
      (∀ i < C, ∀ j < R, entryD (transpose m) i j = entryD m j i) ∧
      transpose [[1, 2, 3], [4, 5, 6]] = [[1, 4], [2, 5], [3, 6]] := by
  have hm := h.eq_mkGrid
  refine ⟨?_, ?_, by decide⟩
  · rw [hm, transpose_mkGrid C R _ hR]
    refine ⟨length_mkGrid .., ?_⟩
    intro r hr
    unfold mkGrid at hr
    rw [List.mem_map] at hr
    obtain ⟨i, _, rfl⟩ := hr
    simp
  · intro i hi j hj
    rw [hm, transpose_mkGrid C R _ hR, entryD_mkGrid C R _ i j hi hj,
        entryD_mkGrid R C _ j i hj hi]

/-- Witness for C3 at `[[1,2,3],[4,5,6]]`, checking the shape, one entry,
and the concrete scenario. -/
theorem transpose_contract_witness :
    (0 < 2 ∧ 0 < 3 ∧ Rect 2 3 [[1, 2, 3], [4, 5, 6]]) ∧
      Rect 3 2 (transpose [[1, 2, 3], [4, 5, 6]]) ∧
      entryD (transpose [[1, 2, 3], [4, 5, 6]]) 2 1 = entryD [[1, 2, 3], [4, 5, 6]] 1 2 ∧
      transpose [[1, 2, 3], [4, 5, 6]] = [[1, 4], [2, 5], [3, 6]] :=
  have h := transpose_contract 2 3 [[1, 2, 3], [4, 5, 6]] (by decide) (by decide) (by decide)
  ⟨⟨by decide, by decide, by decide⟩, h.1, h.2.1 2 (by decide) 1 (by decide), h.2.2⟩

/-- C4: `make_matrix row_size` is an `n × n` grid with `n = |row_size|`,
defaulting to `n = 4` when `|row_size| = 0`; cell `(y, x)` holds
`1 + x + y * n`; the sign of the input is irrelevant and `0` behaves as `4`.
Totality (no integer input raises an error) holds by construction: the
embedding is a total function on `Int`. -/
theorem make_matrix_spec (k : Int) (n : Nat)
    (hn : n = if k.natAbs = 0 then 4 else k.natAbs) :
    Rect n n (make_matrix k) ∧
      (∀ y < n, ∀ x < n, entryD (make_matrix k) y x = 1 + (x : Int) + (y : Int) * (n : Int)) ∧
      make_matrix k = make_matrix (-k) ∧
      make_matrix 0 = make_matrix 4 := by
  subst hn
  have hmk : make_matrix k
      = mkGrid (if k.natAbs = 0 then 4 else k.natAbs) (if k.natAbs = 0 then 4 else k.natAbs)
          fun y x =>
            1 + (x : Int) + (y : Int) * ((if k.natAbs = 0 then 4 else k.natAbs : Nat) : Int) := by
    simp only [make_matrix, mkGrid]
  refine ⟨?_, ?_, ?_, by decide⟩
  · rw [hmk]
    refine ⟨length_mkGrid .., ?_⟩
    intro r hr
    unfold mkGrid at hr
    rw [List.mem_map] at hr
    obtain ⟨i, _, rfl⟩ := hr
    simp
  · intro y hy x hx
    rw [hmk, entryD_mkGrid _ _ _ y x hy hx]
  · simp only [make_matrix, Int.natAbs_neg]

/-- Witness for C4 at `row_size = -3`. -/
theorem make_matrix_spec_witness :
    ((3 : Nat) = if (Int.natAbs (-3)) = 0 then 4 else Int.natAbs (-3)) ∧
      Rect 3 3 (make_matrix (-3)) ∧
      entryD (make_matrix (-3)) 2 1 = 1 + (1 : Int) + (2 : Int) * (3 : Int) ∧
      make_matrix (-3) = make_matrix (-(-3)) ∧
      make_matrix 0 = make_matrix 4 :=
  have h := make_matrix_spec (-3) 3 (by decide)
  ⟨by decide, h.1, h.2.1 2 (by decide) 1 (by decide), h.2.2.1, h.2.2.2⟩

/-- C5: `rotate_270` equals three successive applications of `rotate_90` on
every rectangular grid (both dimensions at least 1), and in particular
`rotate_270 [[1,2,3],[4,5,6]] = [[4,1],[5,2],[6,3]]`. -/
theorem rotate_270_eq_rotate_90_cubed (R C : Nat) (m : Grid)
    (hR : 0 < R) (hC : 0 < C) (h : Rect R C m) :
    rotate_270 m = rotate_90 (rotate_90 (rotate_90 m)) ∧
      rotate_270 [[1, 2, 3], [4, 5, 6]] = [[4, 1], [5, 2], [6, 3]] := by
  refine ⟨?_, by decide⟩
  rw [h.eq_mkGrid]
  unfold rotate_270 rotate_90
  rw [transpose_mkGrid C R _ hR, reverse_column_mkGrid, reverse_row_mkGrid,
      transpose_mkGrid R C _ hC, reverse_row_mkGrid,
      transpose_mkGrid C R _ hR, reverse_row_mkGrid]
  refine mkGrid_congr fun i hi j hj => ?_
  show entryD m (R - 1 - j) i = entryD m (R - 1 - j) (C - 1 - (C - 1 - i))
  rw [show C - 1 - (C - 1 - i) = i from by omega]

/-- Witness for C5 at `[[1,2,3],[4,5,6]]`. -/
theorem rotate_270_eq_rotate_90_cubed_witness :
    (0 < 2 ∧ 0 < 3 ∧ Rect 2 3 [[1, 2, 3], [4, 5, 6]]) ∧
      rotate_270 [[1, 2, 3], [4, 5, 6]]
        = rotate_90 (rotate_90 (rotate_90 [[1, 2, 3], [4, 5, 6]])) ∧
      rotate_270 [[1, 2, 3], [4, 5, 6]] = [[4, 1], [5, 2], [6, 3]] :=
  have h := rotate_270_eq_rotate_90_cubed 2 3 [[1, 2, 3], [4, 5, 6]]
    (by decide) (by decide) (by decide)
  ⟨⟨by decide, by decide, by decide⟩, h.1, h.2⟩

/-- C6: `transpose` is an involution on every rectangular grid with both
dimensions at least 1. -/
theorem transpose_transpose_eq_self (R C : Nat) (m : Grid)
    (hR : 0 < R) (hC : 0 < C) (h : Rect R C m) :
    transpose (transpose m) = m := by
  conv_lhs => rw [h.eq_mkGrid]
  rw [transpose_mkGrid C R _ hR, transpose_mkGrid R C _ hC]
  exact h.eq_mkGrid.symm

/-- Witness for C6 at `[[1,2,3],[4,5,6]]`. -/
theorem transpose_transpose_eq_self_witness :
    (0 < 2 ∧ 0 < 3 ∧ Rect 2 3 [[1, 2, 3], [4, 5, 6]]) ∧
      transpose (transpose [[1, 2, 3], [4, 5, 6]]) = [[1, 2, 3], [4, 5, 6]] :=
  ⟨⟨by decide, by decide, by decide⟩,
    transpose_transpose_eq_self 2 3 _ (by decide) (by decide) (by decide)⟩

/-- C7: `reverse_row` and `reverse_column` are involutions; this holds for
every grid, rectangular or not, so in particular for every rectangular one. -/
theorem reverse_row_reverse_column_involutive (m : Grid) :
    reverse_row (reverse_row m) = m ∧ reverse_column (reverse_column m) = m := by
  refine ⟨List.reverse_reverse m, ?_⟩
  unfold reverse_column
  rw [List.map_map]
  simp [Function.comp]

/-- C9: every operation applied to the empty grid `[]` returns `[]`; the
embedded functions are total, so no error is possible. -/
theorem empty_grid_all_ops :
    transpose ([] : Grid) = [] ∧ reverse_row ([] : Grid) = [] ∧
      reverse_column ([] : Grid) = [] ∧ rotate_90 ([] : Grid) = [] ∧
      rotate_180 ([] : Grid) = [] ∧ rotate_270 ([] : Grid) = [] := by
  decide

/-- C10: on jagged input, `transpose` silently truncates — the output has
`min(row lengths)` rows (`minRowLen` is a lower bound attained by some row),
each of length equal to the number of input rows — and `rotate_90` and
`rotate_270` inherit the same truncated shape.  Totality (no error raised)
holds by construction of the embedding. -/
theorem jagged_transpose_truncates (m : Grid) (hj : Jagged m) :
    ((∀ r ∈ m, minRowLen m ≤ r.length) ∧ ∃ r ∈ m, r.length = minRowLen m) ∧
      (transpose m).length = minRowLen m ∧
      (∀ row ∈ transpose m, row.length = m.length) ∧
      (rotate_90 m).length = minRowLen m ∧
      (∀ row ∈ rotate_90 m, row.length = m.length) ∧
      (rotate_270 m).length = minRowLen m ∧
      (∀ row ∈ rotate_270 m, row.length = m.length) := by
  have hne : m ≠ [] := by
    rintro rfl
    obtain ⟨r, hr, -⟩ := hj
    simp at hr
  refine ⟨⟨minRowLen_le m, minRowLen_mem m hne⟩, transpose_length m,
    length_of_mem_transpose m, ?_, ?_, ?_, ?_⟩
  · unfold rotate_90 reverse_row
    simp [transpose_length m]
  · intro row hrow
    unfold rotate_90 reverse_row at hrow
    rw [List.mem_reverse] at hrow
    exact length_of_mem_transpose m row hrow
  · unfold rotate_270 reverse_column
    simp [transpose_length m]
  · intro row hrow
    unfold rotate_270 reverse_column at hrow
    rw [List.mem_map] at hrow
    obtain ⟨col, hcol, rfl⟩ := hrow
    simp [length_of_mem_transpose m col hcol]

/-- Witness for C10 at the jagged grid `[[1,2,3],[4,5]]`: the transpose has
`2 = min(3, 2)` rows and `rotate_90` keeps that truncated shape. -/
theorem jagged_transpose_truncates_witness :
    Jagged [[1, 2, 3], [4, 5]] ∧
      (transpose [[1, 2, 3], [4, 5]]).length = minRowLen [[1, 2, 3], [4, 5]] ∧
      (rotate_90 [[1, 2, 3], [4, 5]]).length = minRowLen [[1, 2, 3], [4, 5]] ∧
      (rotate_270 [[1, 2, 3], [4, 5]]).length = minRowLen [[1, 2, 3], [4, 5]] :=
  have h := jagged_transpose_truncates [[1, 2, 3], [4, 5]] (by decide)
  ⟨by decide, h.2.1, h.2.2.2.1, h.2.2.2.2.2.1⟩

end RotateMatrix
